import Mathlib

set_option maxHeartbeats 1000000

/-!
A verification development for the document-ingestion / retrieval core of the
RAG project.  The Python sources (`text_processing.py`, `retrieval.py`,
`crud.py`) are shallowly embedded below: strings are `List Char`, Python ints
are `Int` (loop counters and fuel are `Nat`), floating-point numbers are
idealised as real numbers `ℝ`, and the relational store is a pair of lists.
-/

/-! ## Text cleaning (`text_processing.clean_text`) -/

/-- Python's whitespace class (`\s` of `re`, `str.strip()` default), restricted
to the ASCII whitespace characters. -/
def isPySpace (c : Char) : Bool :=
  c = ' ' || c = '\t' || c = '\n' || c = '\r' || c = '\x0b' || c = '\x0c'

/-- Python `str.strip()`: drop leading and trailing whitespace. -/
def pyStrip (l : List Char) : List Char :=
  ((l.dropWhile isPySpace).reverse.dropWhile isPySpace).reverse

/-- `re.sub(r' +', ' ', text)`: collapse each maximal run of spaces to a single
space, i.e. drop every space that immediately follows another space.  The
`Bool` argument records whether the previous character was a space. -/
def collapseSpacesAux : Bool → List Char → List Char
  | _, [] => []
  | prevSpace, c :: rest =>
    if c = ' ' then
      if prevSpace then collapseSpacesAux true rest
      else ' ' :: collapseSpacesAux true rest
    else c :: collapseSpacesAux false rest

/-- `re.sub(r' +', ' ', text)`. -/
def collapseSpaces (l : List Char) : List Char := collapseSpacesAux false l

/-- Does the whitespace run starting at `rest` contain a newline?  (Used to
decide whether a `\n` is followed by another `\n` within its `\s*` run, which
is exactly when `\n\s*\n+` matches starting at that newline.) -/
def nlAhead (rest : List Char) : Bool := (rest.takeWhile isPySpace).contains '\n'

/-- `re.sub(r'\n\s*\n+', '\n\n', text)`.  A match starting at a newline `c`
extends (greedily) to the last newline of the maximal whitespace run that
follows, and is replaced by `"\n\n"`.  Equivalently, character by character:
a newline with a further newline ahead in its whitespace run opens a replaced
segment (emitting `"\n\n"`); characters inside the segment are dropped; the
last newline of the run closes the segment; everything else is copied.  The
`Bool` argument is `true` while inside a replaced segment. -/
def collapseBlankAux : Bool → List Char → List Char
  | _, [] => []
  | inBlank, c :: rest =>
    if isPySpace c then
      if inBlank then
        if c = '\n' && !nlAhead rest then collapseBlankAux false rest
        else collapseBlankAux true rest
      else
        if c = '\n' && nlAhead rest then '\n' :: '\n' :: collapseBlankAux true rest
        else c :: collapseBlankAux false rest
    else c :: collapseBlankAux false rest

/-- `re.sub(r'\n\s*\n+', '\n\n', text)`. -/
def collapseBlank (l : List Char) : List Char := collapseBlankAux false l

/-- The zero-width / BOM characters removed by `clean_text`. -/
def isZeroWidth (c : Char) : Bool :=
  c = '​' || c = '‌' || c = '‍' || c = '﻿'

/-- `re.sub(r'[​‌‍﻿]', '', text)`. -/
def removeZeroWidth (l : List Char) : List Char := l.filter fun c => !isZeroWidth c

/-- `text_processing.clean_text`: collapse space runs, collapse blank lines,
strip zero-width characters, trim. -/
def clean_text (l : List Char) : List Char :=
  pyStrip (removeZeroWidth (collapseBlank (collapseSpaces l)))

/-! ## Chunking (`text_processing.chunk_text`) -/

/-- `text_processing.estimate_tokens`: `len(text) // 4`. -/
def estimate_tokens (l : List Char) : Nat := l.length / 4

/-- Resolve a Python slice endpoint: negative indices count from the end
(clamped to `0`), non-negative ones are clamped to the length. -/
def pyIdx (n : Nat) (i : Int) : Nat := if i < 0 then (i + n).toNat else min i.toNat n

/-- Python `text[a:b]` for a `List Char` text. -/
def pySlice (l : List Char) (a b : Int) : List Char :=
  (l.take (pyIdx l.length b)).drop (pyIdx l.length a)

/-- Python `text.rfind(c, a, b)` for a single-character needle: the largest
index `k` in the resolved range `[a, b)` with `text[k] = c`, else `-1`. -/
def pyRfindChar (l : List Char) (c : Char) (a b : Int) : Int :=
  (List.range (pyIdx l.length b)).foldl
    (fun acc k => if pyIdx l.length a ≤ k ∧ l[k]? = some c then (k : Int) else acc) (-1)

/-- One step of `chunk_text`'s window-end computation: the naive end is
`start + chunk_size`; if that falls strictly before the end of the text, snap
back to just after the right-most sentence terminator (`.`, `!`, `?`) found in
the last fifth of the window.  `chunk_size / 5` models Python's
`int(chunk_size * 0.2)` (they agree for any realistic chunk size). -/
def windowEnd (text : List Char) (chunk_size : Int) (start : Int) : Int :=
  let e0 := start + chunk_size
  if e0 < (text.length : Int) then
    let search_start := e0 - chunk_size / 5
    let last_period := pyRfindChar text '.' search_start e0
    let last_exclaim := pyRfindChar text '!' search_start e0
    let last_question := pyRfindChar text '?' search_start e0
    let sentence_end := max (max last_period last_exclaim) last_question
    if sentence_end ≠ -1 ∧ sentence_end > search_start then sentence_end + 1 else e0
  else e0

/-- The trace of `chunk_text`'s sliding-window loop: one entry
`(start, end, stripped slice)` per iteration.  The loop in the source has no
termination guarantee (see the claims about overlap), so it is embedded with
explicit fuel; `none` means the fuel ran out before the loop exited. -/
def chunkTrace (text : List Char) (chunk_size chunk_overlap : Int) :
    Nat → Int → Option (List (Int × Int × List Char))
  | 0, _ => none
  | fuel + 1, start =>
    if start < (text.length : Int) then
      if (text.length : Int) ≤ windowEnd text chunk_size start - chunk_overlap then
        some [(start, windowEnd text chunk_size start,
          pyStrip (pySlice text start (windowEnd text chunk_size start)))]
      else
        (chunkTrace text chunk_size chunk_overlap fuel
            (windowEnd text chunk_size start - chunk_overlap)).map
          ((start, windowEnd text chunk_size start,
            pyStrip (pySlice text start (windowEnd text chunk_size start))) :: ·)
    else some []

/-- A chunk draft as produced by `chunk_text` (the dict with keys `text`,
`char_start`, `char_end`, `chunk_index`, `token_count`). -/
structure Chunk where
  text : List Char
  char_start : Int
  char_end : Int
  chunk_index : Nat
  token_count : Nat
deriving DecidableEq

/-- Turn the loop trace into the emitted chunk list: an iteration whose
stripped slice is empty is skipped (but the window still advanced); the chunk
index increments only on emission. -/
def buildChunks : Nat → List (Int × Int × List Char) → List Chunk
  | _, [] => []
  | idx, (st, en, sl) :: rest =>
    if sl.isEmpty then buildChunks idx rest
    else ⟨sl, st, en, idx, estimate_tokens sl⟩ :: buildChunks (idx + 1) rest

/-- `text_processing.chunk_text` with explicit fuel for the sliding-window
loop.  Empty text gives no chunks; text no longer than `chunk_size` gives a
single whole-text chunk; otherwise the loop runs. -/
def chunk_text (fuel : Nat) (text : List Char) (chunk_size chunk_overlap : Int) :
    Option (List Chunk) :=
  if text.length = 0 then some []
  else if (text.length : Int) ≤ chunk_size then
    some [⟨text, 0, (text.length : Int), 0, estimate_tokens text⟩]
  else (chunkTrace text chunk_size chunk_overlap fuel 0).map (buildChunks 0)

/-- `chunk_text`'s loop never terminates on this input, whatever the fuel. -/
def ChunkLoopDiverges (text : List Char) (chunk_size chunk_overlap : Int) : Prop :=
  ∀ fuel, chunkTrace text chunk_size chunk_overlap fuel 0 = none

/-- Every window of the (terminating) loop run has a non-empty stripped slice,
so no emission is skipped. -/
def NoSkippedWindow (fuel : Nat) (text : List Char) (chunk_size chunk_overlap : Int) : Prop :=
  ∀ tr, chunkTrace text chunk_size chunk_overlap fuel 0 = some tr →
    ∀ e ∈ tr, e.2.2 ≠ []

/-! ## Retrieval (`retrieval.py`) -/

/-- `np.dot` of two 1-D float vectors, idealised over `ℝ`.  (On mismatched
lengths `np.dot` raises; the caller `search_similar_chunks` skips such a chunk,
which is modelled at the call site.) -/
def dotList (v w : List ℝ) : ℝ := (List.zipWith (· * ·) v w).sum

/-- `retrieval.cosine_similarity`: `dot / (‖v‖ * ‖w‖)`, with `0.0` when either
norm is zero. -/
noncomputable def cosine_similarity (v w : List ℝ) : ℝ :=
  let dot_product := dotList v w
  let norm1 := Real.sqrt (dotList v v)
  let norm2 := Real.sqrt (dotList w w)
  if norm1 = 0 ∨ norm2 = 0 then 0 else dot_product / (norm1 * norm2)

/-- A row of the `documents` table (the fields retrieval cares about). -/
structure DocumentRec where
  id : Int
  user_id : Int
deriving DecidableEq

/-- A row of the `document_chunks` table. -/
structure ChunkRec where
  id : Int
  document_id : Int
  chunk_index : Int
  text : List Char
  char_start : Int
  char_end : Int
  token_count : Int
  embedding : Option (List ℝ)

/-- The persistence store as seen by `search_similar_chunks`: the two tables,
in insertion (load) order. -/
structure Db where
  documents : List DocumentRec
  chunks : List ChunkRec

/-- One entry of `search_similar_chunks`'s result list. -/
structure ScoredChunk where
  id : Int
  document_id : Int
  chunk_index : Int
  text : List Char
  char_start : Int
  char_end : Int
  token_count : Int
  similarity : ℝ

/-- The SQL query of `search_similar_chunks`: join chunks to documents on
`document_id`, filter by owner, optionally restrict to the given document ids
(an empty filter list behaves like Python's falsy `None`/`[]`: no filter), and
keep only chunks with a stored embedding. -/
def chunkMatches (db : Db) (user_id : Int) (document_ids : List Int) (c : ChunkRec) : Bool :=
  (db.documents.any fun d => d.id == c.document_id && d.user_id == user_id &&
      (document_ids.isEmpty || document_ids.contains c.document_id)) &&
    c.embedding.isSome

/-- The candidate chunks loaded by `search_similar_chunks`, in load order. -/
def loadCandidates (db : Db) (user_id : Int) (document_ids : List Int) : List ChunkRec :=
  db.chunks.filter (chunkMatches db user_id document_ids)

/-- Score one candidate: `if chunk.embedding:` skips `None` and empty (falsy)
embeddings; a dimension mismatch makes `np.dot` raise, which the `except`
branch turns into skipping the chunk. -/
noncomputable def scoreChunk (qv : List ℝ) (c : ChunkRec) : Option ScoredChunk :=
  match c.embedding with
  | none => none
  | some v =>
    if v.isEmpty then none
    else if v.length ≠ qv.length then none
    else some ⟨c.id, c.document_id, c.chunk_index, c.text, c.char_start, c.char_end,
      c.token_count, cosine_similarity qv v⟩

/-- The scored results, in load order (before sorting). -/
noncomputable def scoreChunks (qv : List ℝ) (cands : List ChunkRec) : List ScoredChunk :=
  cands.filterMap (scoreChunk qv)

/-- The sort order of `results.sort(key=lambda x: x["similarity"], reverse=True)`:
descending similarity. -/
def simOrd (a b : ScoredChunk) : Prop := b.similarity ≤ a.similarity

noncomputable instance : DecidableRel simOrd :=
  fun a b => inferInstanceAs (Decidable (b.similarity ≤ a.similarity))

instance : IsTotal ScoredChunk simOrd := ⟨fun a b => (le_total b.similarity a.similarity)⟩

instance : IsTrans ScoredChunk simOrd := ⟨fun _ _ _ h h' => le_trans h' h⟩

/-- Python `l[:k]`: for non-negative `k` the first `k` elements, for negative
`k` everything but the last `|k|` elements. -/
def pySliceTo {α : Type} (k : Int) (l : List α) : List α :=
  if 0 ≤ k then l.take k.toNat else l.take (l.length - (-k).toNat)

/-- `retrieval.search_similar_chunks`.  The query embedding is produced by the
external embedding provider, so it enters the model as a value.  Python's
`list.sort` is a stable sort, modelled by Mathlib's stable `insertionSort`. -/
noncomputable def search_similar_chunks (db : Db) (query_embedding : List ℝ)
    (user_id : Int) (top_k : Int) (document_ids : List Int) : List ScoredChunk :=
  let chunks := loadCandidates db user_id document_ids
  if chunks.isEmpty then []
  else pySliceTo top_k (List.insertionSort simOrd (scoreChunks query_embedding chunks))

/-! ## Ingestion tail (`text_processing.process_document_async` after chunking,
and `crud.create_document_chunks`) -/

/-- A persisted `DocumentChunkDB` row as written by `create_document_chunks`
(the db-assigned primary key is omitted). -/
structure PersistedChunk where
  document_id : Int
  chunk_index : Nat
  text : List Char
  char_start : Int
  char_end : Int
  token_count : Nat
  embedding : Option (List ℝ)

/-- `crud.create_document_chunks`: bulk-build one row per (chunk, embedding)
pair for the given document. -/
def create_document_chunks (document_id : Int) (chunks : List (Chunk × List ℝ)) :
    List PersistedChunk :=
  chunks.map fun ce => ⟨document_id, ce.1.chunk_index, ce.1.text, ce.1.char_start,
    ce.1.char_end, ce.1.token_count, some ce.2⟩

/-- The `for i, chunk in enumerate(chunks): chunk["embedding"] = embeddings[i]`
loop: pairing is positional; if the provider returned fewer vectors than
chunks, `embeddings[i]` raises `IndexError("list index out of range")`.
Surplus vectors are ignored (`zip` truncates). -/
def attachEmbeddings (chunks : List Chunk) (embeddings : List (List ℝ)) :
    Except String (List (Chunk × List ℝ)) :=
  if chunks.length ≤ embeddings.length then Except.ok (chunks.zip embeddings)
  else Except.error "list index out of range"

/-- The document state and persisted chunks after ingestion finishes. -/
structure ProcessOutcome where
  processing_status : String
  processing_error : Option String
  persisted : List PersistedChunk

/-- The tail of `text_processing.process_document_async` from the point where
the chunk drafts and the provider's batch-embedding result exist: attach the
vectors positionally, bulk-save, mark completed; any exception (here: the
positional-attach `IndexError`) is caught, the document is marked `failed`
with the exception's message, and the bulk save is never reached. -/
def process_document_embed_save (document_id : Int) (chunks : List Chunk)
    (embeddings : List (List ℝ)) : ProcessOutcome :=
  match attachEmbeddings chunks embeddings with
  | Except.error e => ⟨"failed", some e, []⟩
  | Except.ok withEmb => ⟨"completed", none, create_document_chunks document_id withEmb⟩

/-! ## Helper definitions used in claim statements -/

/-- Does some chunk's `[char_start, char_end)` range contain position `i`? -/
def coversPos (chunks : List Chunk) (i : Int) : Bool :=
  chunks.any fun c => decide (c.char_start ≤ i ∧ i < c.char_end)

/-- Access isolation: every returned entry's parent document (any stored
document with the entry's `document_id`) is owned by the requesting user. -/
def IsolationOk (db : Db) (user_id : Int) (rs : List ScoredChunk) : Prop :=
  ∀ r ∈ rs, ∀ d ∈ db.documents, d.id = r.document_id → d.user_id = user_id

/-- A store with one document (id 1, owner 1) holding one embedded chunk. -/
def dbOneCand : Db :=
  ⟨[⟨1, 1⟩], [⟨1, 1, 0, ['t'], 0, 1, 0, some [1]⟩]⟩

/-- A store with two documents (owners 1 and 2); document 1 holds two embedded
chunks. -/
def dbTwoCand : Db :=
  ⟨[⟨1, 1⟩, ⟨2, 2⟩],
   [⟨1, 1, 0, ['t'], 0, 1, 0, some [1]⟩, ⟨2, 1, 1, ['u'], 1, 2, 0, some [1]⟩]⟩

/-- 18 `'a'`s, a period at index 18, then 3 more `'a'`s (length 22).  With
`chunk_size = 20`, `chunk_overlap = 19` the window `[0, 20)` snaps to the
period (`end = 19`) and the next start is `19 - 19 = 0` again: the loop never
advances. -/
def stallText : List Char :=
  ['a', 'a', 'a', 'a', 'a', 'a', 'a', 'a', 'a', 'a', 'a', 'a', 'a', 'a', 'a',
   'a', 'a', 'a', '.', 'a', 'a', 'a']

/-- The adjacency invariant produced by space collapsing: no two neighbouring
spaces. -/
def notSpacePair (a b : Char) : Prop := ¬(a = ' ' ∧ b = ' ')

/-- The part of a whitespace run strictly before its first newline. -/
def preNl (R : List Char) : List Char := R.takeWhile fun c => !decide (c = '\n')

/-- The part of a whitespace run strictly after its last newline. -/
def afterLastNl (R : List Char) : List Char :=
  (R.reverse.takeWhile fun c => !decide (c = '\n')).reverse

/-- Does the run contain a second newline after its first one?  This is
exactly when `\n\s*\n+` matches inside the run, i.e. when `collapseBlank`
rewrites it. -/
def twoNl (R : List Char) : Bool :=
  ((R.dropWhile fun c => !decide (c = '\n')).drop 1).contains '\n'

/-- What `collapseBlank` does to one maximal whitespace run: a run with two
newlines becomes `preNl ++ "\n\n" ++ afterLastNl`; any other run is kept. -/
def normRun (R : List Char) : List Char :=
  if twoNl R then preNl R ++ '\n' :: '\n' :: afterLastNl R else R

/-! # Theorems

## Chunking: coverage, termination, small input, unclamped end -/

theorem chunkTrace_covers (text : List Char) (cs ov : Int) (hov : 0 ≤ ov) :
    ∀ (fuel : Nat) (start : Int) (tr : List (Int × Int × List Char)),
      chunkTrace text cs ov fuel start = some tr →
      ∀ i : Int, start ≤ i → i < (text.length : Int) →
        ∃ e ∈ tr, e.1 ≤ i ∧ i < e.2.1 := by
  intro fuel
  induction fuel with
  | zero =>
    intro start tr h
    exact absurd h (by rw [chunkTrace]; exact Option.noConfusion)
  | succ n ih =>
    intro start tr h i hsi hil
    rw [chunkTrace] at h
    by_cases hs : start < (text.length : Int)
    · rw [if_pos hs] at h
      by_cases hstop : (text.length : Int) ≤ windowEnd text cs start - ov
      · rw [if_pos hstop] at h
        have htr := (Option.some.inj h).symm
        subst htr
        refine ⟨(start, windowEnd text cs start,
          pyStrip (pySlice text start (windowEnd text cs start))), List.mem_singleton.mpr rfl,
          hsi, ?_⟩
        show i < windowEnd text cs start
        omega
      · rw [if_neg hstop] at h
        obtain ⟨tr', htr', htr⟩ := Option.map_eq_some'.mp h
        subst htr
        by_cases hie : i < windowEnd text cs start
        · exact ⟨(start, windowEnd text cs start,
            pyStrip (pySlice text start (windowEnd text cs start))), List.mem_cons_self _ _,
            hsi, hie⟩
        · obtain ⟨e', he', h1, h2⟩ :=
            ih (windowEnd text cs start - ov) tr' htr' i (by omega) hil
          exact ⟨e', List.mem_cons_of_mem _ he', h1, h2⟩
    · rw [if_neg hs] at h
      exact absurd (lt_of_le_of_lt hsi hil) hs

theorem buildChunks_covers :
    ∀ (tr : List (Int × Int × List Char)) (idx : Nat) (e : Int × Int × List Char),
      e ∈ tr → (∀ e' ∈ tr, e'.2.2 ≠ []) →
      ∃ c ∈ buildChunks idx tr, c.char_start = e.1 ∧ c.char_end = e.2.1 := by
  intro tr
  induction tr with
  | nil => intro idx e he; cases he
  | cons hd tl ih =>
    intro idx e he hns
    obtain ⟨st, en, sl⟩ := hd
    have hne : sl ≠ [] := hns (st, en, sl) (List.mem_cons_self _ _)
    rw [buildChunks, if_neg (by simpa [List.isEmpty_iff] using hne)]
    rcases List.mem_cons.mp he with heq | htl
    · subst heq
      exact ⟨⟨sl, st, en, idx, estimate_tokens sl⟩, List.mem_cons_self _ _, rfl, rfl⟩
    · obtain ⟨c, hc, h1, h2⟩ :=
        ih (idx + 1) e htl (fun e' he' => hns e' (List.mem_cons_of_mem _ he'))
      exact ⟨c, List.mem_cons_of_mem _ hc, h1, h2⟩

/-- **C2** (amended).  For a non-empty text and a configuration with
`0 ≤ overlap < chunkSize`, *provided the loop terminated and no window was
skipped* (every window's trimmed slice is non-empty), the `[char_start,
char_end)` ranges of the emitted chunks cover all of `[0, len(text))`.  The
proviso is forced: a whitespace-only window is skipped while the window still
advances, leaving its range uncovered (see the counterexample). -/
theorem chunk_text_coverage (text : List Char) (cs ov : Int) (fuel : Nat)
    (chunks : List Chunk) (hov : 0 ≤ ov) (hcs : ov < cs)
    (h : chunk_text fuel text cs ov = some chunks)
    (hns : NoSkippedWindow fuel text cs ov) :
    ∀ i : Nat, i < text.length → coversPos chunks ((i : Nat) : Int) = true := by
  intro i hi
  rw [chunk_text] at h
  by_cases h0 : text.length = 0
  · omega
  · rw [if_neg h0] at h
    by_cases hsmall : (text.length : Int) ≤ cs
    · rw [if_pos hsmall] at h
      have hch := (Option.some.inj h).symm
      subst hch
      have h1 : (0 : Int) ≤ (i : Int) := Int.natCast_nonneg i
      have h2 : (i : Int) < (text.length : Int) := by exact_mod_cast hi
      unfold coversPos
      rw [List.any_eq_true]
      exact ⟨_, List.mem_singleton.mpr rfl, decide_eq_true ⟨h1, h2⟩⟩
    · rw [if_neg hsmall] at h
      obtain ⟨tr, htr, hch⟩ := Option.map_eq_some'.mp h
      subst hch
      have hskip := hns tr htr
      obtain ⟨e, he, h1, h2⟩ :=
        chunkTrace_covers text cs ov hov fuel 0 tr htr (i : Int)
          (Int.natCast_nonneg i) (by exact_mod_cast hi)
      obtain ⟨c, hc, hc1, hc2⟩ := buildChunks_covers tr 0 e he hskip
      unfold coversPos
      rw [List.any_eq_true]
      exact ⟨c, hc, decide_eq_true (by rw [hc1, hc2]; exact ⟨h1, h2⟩)⟩

/-- **C2** counterexample.  `"a      b"` with `chunk_size = 3`,
`chunk_overlap = 0` (so `overlap ≥ 0`, `chunkSize > overlap`, text non-empty):
the middle window `[3, 6)` is all spaces, its stripped slice is empty, so no
chunk records that range and position 3 is not covered by the emitted ranges
`[0, 3)` and `[6, 9)`. -/
theorem chunk_text_coverage_counterexample :
    chunk_text 9 ['a', ' ', ' ', ' ', ' ', ' ', ' ', 'b'] 3 0 =
      some [⟨['a'], 0, 3, 0, 0⟩, ⟨['b'], 6, 9, 1, 0⟩] ∧
    coversPos [⟨['a'], 0, 3, 0, 0⟩, ⟨['b'], 6, 9, 1, 0⟩] 3 = false := by
  constructor
  · decide
  · decide

/-- **C2** witness: `"abcdef"`, `chunk_size = 3`, `chunk_overlap = 1` skips no
window, and e.g. position 0 is covered. -/
theorem chunk_text_coverage_witness :
    coversPos [⟨['a', 'b', 'c'], 0, 3, 0, 0⟩, ⟨['c', 'd', 'e'], 2, 5, 1, 0⟩,
      ⟨['e', 'f'], 4, 7, 2, 0⟩] ((0 : Nat) : Int) = true := by
  have heq : chunkTrace ['a', 'b', 'c', 'd', 'e', 'f'] 3 1 10 0 =
      some [(0, 3, ['a', 'b', 'c']), (2, 5, ['c', 'd', 'e']), (4, 7, ['e', 'f'])] := by decide
  refine chunk_text_coverage ['a', 'b', 'c', 'd', 'e', 'f'] 3 1 10 _
    (by norm_num) (by norm_num) (by decide) ?_ 0 (by decide)
  intro tr htr
  rw [heq] at htr
  have h := Option.some.inj htr
  subst h
  decide

theorem windowEnd_progress (text : List Char) (cs ov : Int) (hov : 0 ≤ ov)
    (hlt : ov < cs) (hsnap : ov + cs / 5 ≤ cs + 1) (start : Int) :
    start < windowEnd text cs start - ov := by
  simp only [windowEnd]
  split_ifs with h1 h2
  · obtain ⟨-, hgt⟩ := h2
    omega
  · omega
  · omega

theorem chunkTrace_terminates (text : List Char) (cs ov : Int)
    (hprog : ∀ start : Int, start < windowEnd text cs start - ov) :
    ∀ (n : Nat) (start : Int), (text.length : Int) - start ≤ n →
      (chunkTrace text cs ov (n + 1) start).isSome = true := by
  intro n
  induction n with
  | zero =>
    intro start h
    rw [chunkTrace, if_neg (by omega)]
    rfl
  | succ m ih =>
    intro start h
    rw [chunkTrace]
    by_cases hs : start < (text.length : Int)
    · rw [if_pos hs]
      by_cases hstop : (text.length : Int) ≤ windowEnd text cs start - ov
      · rw [if_pos hstop]; rfl
      · rw [if_neg hstop]
        have hp := hprog start
        have h2 := ih (windowEnd text cs start - ov) (by omega)
        obtain ⟨a, ha⟩ := Option.isSome_iff_exists.mp h2
        rw [ha]
        rfl
    · rw [if_neg hs]; rfl

/-- **C5** (amended).  With `0 ≤ overlap < chunkSize` *and additionally*
`overlap + chunkSize/5 ≤ chunkSize + 1` (the snap window cannot push the next
start backwards), every iteration strictly increases `start`, and the loop of
`chunk_text` terminates within `len(text) + 1` iterations.  The extra bound is
forced: `0 ≤ overlap < chunkSize` alone does not give termination (see the
divergence counterexample with `chunkSize = 20`, `overlap = 19`). -/
theorem chunk_text_progress_terminates (text : List Char) (cs ov : Int)
    (hov : 0 ≤ ov) (hlt : ov < cs) (hsnap : ov + cs / 5 ≤ cs + 1) :
    (∀ start : Int, start < windowEnd text cs start - ov) ∧
    (chunk_text (text.length + 1) text cs ov).isSome = true := by
  have hp := windowEnd_progress text cs ov hov hlt hsnap
  refine ⟨hp, ?_⟩
  rw [chunk_text]
  split_ifs with h0 hsmall
  · rfl
  · rfl
  · have h := chunkTrace_terminates text cs ov hp text.length 0 (by omega)
    obtain ⟨a, ha⟩ := Option.isSome_iff_exists.mp h
    rw [ha]
    rfl

/-- **C5** witness: `chunkSize = 5`, `overlap = 1` satisfies all the
hypotheses, and chunking an 8-character text terminates. -/
theorem chunk_text_progress_terminates_witness :
    (chunk_text 9 ['a', 'b', 'c', 'd', 'e', 'f', 'g', 'h'] 5 1).isSome = true :=
  (chunk_text_progress_terminates ['a', 'b', 'c', 'd', 'e', 'f', 'g', 'h'] 5 1
    (by norm_num) (by norm_num) (by norm_num)).2

/-- **C5** counterexample.  With `chunk_size = 20`, `chunk_overlap = 19`
(a configuration with `0 ≤ overlap < chunkSize`), on `stallText` the window
`[0, 20)` snaps to the period at index 18, so `end = 19` and the next start is
`19 - 19 = 0`: the loop repeats forever and `chunk_text` does not terminate. -/
theorem chunk_text_stall_counterexample :
    ChunkLoopDiverges stallText 20 19 ∧ (0 : Int) ≤ 19 ∧ (19 : Int) < 20 := by
  refine ⟨?_, by norm_num, by norm_num⟩
  have hl : (stallText.length : Int) = 22 := by decide
  have hw : windowEnd stallText 20 0 = 19 := by decide
  have hstep : ∀ fuel : Nat, chunkTrace stallText 20 19 (fuel + 1) 0 =
      (chunkTrace stallText 20 19 fuel 0).map
        ((0, 19, pyStrip (pySlice stallText 0 19)) :: ·) := by
    intro fuel
    rw [chunkTrace, hw, hl]
    norm_num
  intro fuel
  induction fuel with
  | zero => rfl
  | succ n ih => rw [hstep n, ih]; rfl

/-- **C9** (amended).  For every *non-empty* text with `len(text) ≤ chunkSize`,
`chunk_text` returns exactly one chunk: index 0, `char_start = 0`,
`char_end = len(text)`, whatever the overlap and fuel.  (Non-emptiness is
forced: the empty text returns no chunks, see the counterexample.) -/
theorem chunk_text_small_input (fuel : Nat) (text : List Char) (cs ov : Int)
    (hne : text ≠ []) (hle : (text.length : Int) ≤ cs) :
    chunk_text fuel text cs ov =
      some [⟨text, 0, (text.length : Int), 0, estimate_tokens text⟩] := by
  rw [chunk_text, if_neg (by simpa using hne), if_pos hle]

/-- **C9** witness: a one-character text with `chunkSize = 5` yields the single
whole-text chunk. -/
theorem chunk_text_small_input_witness :
    chunk_text 0 ['a'] 5 0 = some [⟨['a'], 0, 1, 0, 0⟩] :=
  chunk_text_small_input 0 ['a'] 5 0 (by decide) (by decide)

/-- **C9** counterexample.  The empty text has `len(text) = 0 ≤ 5 = chunkSize`
but `chunk_text` returns zero chunks, not one. -/
theorem chunk_text_small_input_counterexample :
    (chunk_text 1 [] 5 0).map List.length = some 0 ∧
    ((List.length ([] : List Char) : Int) ≤ 5) := by
  constructor
  · decide
  · decide

/-- **C10** (confirmed).  `chunk_text` does not clamp the recorded `char_end`:
on `"abcde"` with `chunk_size = 3`, `chunk_overlap = 0` the last chunk records
`char_end = 6 > 5 = len(text)`, while its text is still the stripped slice
`text[3:5]`. -/
theorem chunk_text_unclamped_end :
    chunk_text 6 ['a', 'b', 'c', 'd', 'e'] 3 0 =
      some [⟨['a', 'b', 'c'], 0, 3, 0, 0⟩, ⟨['d', 'e'], 3, 6, 1, 0⟩] ∧
    (5 : Int) < 6 ∧
    pyStrip (pySlice ['a', 'b', 'c', 'd', 'e'] 3 5) = ['d', 'e'] := by
  refine ⟨by decide, by norm_num, by decide⟩

/-! ## Retrieval: access isolation, ranking, topK handling -/

theorem pySliceTo_sublist {α : Type} (k : Int) (l : List α) : (pySliceTo k l).Sublist l := by
  rw [pySliceTo]
  split_ifs <;> exact List.take_sublist _ _

theorem mem_search_mem_scored (db : Db) (qv : List ℝ) (uid k : Int) (ids : List Int)
    (r : ScoredChunk) (hr : r ∈ search_similar_chunks db qv uid k ids) :
    r ∈ scoreChunks qv (loadCandidates db uid ids) := by
  simp only [search_similar_chunks] at hr
  by_cases hemp : (loadCandidates db uid ids).isEmpty
  · rw [if_pos hemp] at hr; cases hr
  · rw [if_neg hemp] at hr
    have h1 : r ∈ List.insertionSort simOrd (scoreChunks qv (loadCandidates db uid ids)) :=
      (pySliceTo_sublist k _).subset hr
    exact (List.perm_insertionSort simOrd _).mem_iff.mp h1

theorem scoreChunk_document_id {qv : List ℝ} {c : ChunkRec} {r : ScoredChunk}
    (h : scoreChunk qv c = some r) : r.document_id = c.document_id := by
  unfold scoreChunk at h
  split at h
  · cases h
  · split_ifs at h
    obtain rfl := Option.some.inj h
    rfl

/-- **C1** (confirmed).  Provided document ids are unique (they are a primary
key), every chunk returned by `search_similar_chunks` for user `uid` has a
parent document owned by `uid`: the join filters on
`DocumentDB.user_id == user_id` before scoring, sorting and truncation. -/
theorem search_access_isolation (db : Db) (qv : List ℝ) (uid k : Int) (ids : List Int)
    (hids : (db.documents.map DocumentRec.id).Nodup) :
    IsolationOk db uid (search_similar_chunks db qv uid k ids) := by
  intro r hr d hd hdid
  have hr' := mem_search_mem_scored db qv uid k ids r hr
  obtain ⟨c, hc, hsc⟩ := List.mem_filterMap.mp hr'
  have hdoc : r.document_id = c.document_id := scoreChunk_document_id hsc
  have hm := (List.mem_filter.mp hc).2
  unfold chunkMatches at hm
  rw [Bool.and_eq_true] at hm
  obtain ⟨d0, hd0, hcond⟩ := List.any_eq_true.mp hm.1
  rw [Bool.and_eq_true, Bool.and_eq_true] at hcond
  have h1 : d0.id = c.document_id := by
    have := hcond.1.1
    exact eq_of_beq this
  have h2 : d0.user_id = uid := by
    have := hcond.1.2
    exact eq_of_beq this
  have hdd : d = d0 :=
    List.inj_on_of_nodup_map hids hd hd0 (by rw [hdid, hdoc, h1])
  rw [hdd, h2]

/-- **C1** witness: in a store with documents owned by users 1 and 2, every
result of a search by user 1 has a parent document owned by user 1. -/
theorem search_access_isolation_witness :
    IsolationOk dbTwoCand 1 (search_similar_chunks dbTwoCand [(1 : ℝ)] 1 5 []) :=
  search_access_isolation dbTwoCand [(1 : ℝ)] 1 5 [] (by decide)

theorem filter_orderedInsert (s : ℝ) (x : ScoredChunk) (l : List ScoredChunk) :
    (List.orderedInsert simOrd x l).filter (fun c => decide (c.similarity = s)) =
      if x.similarity = s then
        x :: l.filter (fun c => decide (c.similarity = s))
      else l.filter (fun c => decide (c.similarity = s)) := by
  induction l with
  | nil =>
    by_cases hx : x.similarity = s <;> simp [List.orderedInsert, hx]
  | cons y t ih =>
    rw [List.orderedInsert]
    by_cases hxy : simOrd x y
    · rw [if_pos hxy]
      by_cases hx : x.similarity = s <;> simp [List.filter_cons, hx]
    · rw [if_neg hxy]
      have hlt : x.similarity < y.similarity := lt_of_not_le hxy
      by_cases hy : y.similarity = s
      · have hx : x.similarity ≠ s := by
          rw [← hy]
          exact ne_of_lt hlt
        simp [List.filter_cons, hx, hy, ih]
      · by_cases hx : x.similarity = s <;> simp [List.filter_cons, hy, hx, ih]

theorem filter_insertionSort (s : ℝ) (l : List ScoredChunk) :
    (List.insertionSort simOrd l).filter (fun c => decide (c.similarity = s)) =
      l.filter (fun c => decide (c.similarity = s)) := by
  induction l with
  | nil => rfl
  | cons x t ih =>
    rw [List.insertionSort, filter_orderedInsert]
    by_cases hx : x.similarity = s <;> simp [List.filter_cons, hx, ih]

/-- **C3** (amended).  Every search result is sorted non-increasing by
similarity, and ties keep their original load order (for each similarity
value, the returned entries with that value form a sublist of the scored
candidates in load order — Python's sort is stable).  The length bound
`len(output) ≤ min(topK, scored candidates)` holds *for `topK ≥ 0`*; it fails
for negative `topK` because `results[:top_k]` uses Python slice semantics
(see the counterexample). -/
theorem search_ranking (db : Db) (qv : List ℝ) (uid k : Int) (ids : List Int) :
    List.Sorted simOrd (search_similar_chunks db qv uid k ids) ∧
    (∀ s : ℝ, ((search_similar_chunks db qv uid k ids).filter
        (fun c => decide (c.similarity = s))).Sublist
      ((scoreChunks qv (loadCandidates db uid ids)).filter
        (fun c => decide (c.similarity = s)))) ∧
    (0 ≤ k → (search_similar_chunks db qv uid k ids).length ≤
      min k.toNat (scoreChunks qv (loadCandidates db uid ids)).length) := by
  simp only [search_similar_chunks]
  by_cases hemp : (loadCandidates db uid ids).isEmpty
  · rw [if_pos hemp]
    have he : loadCandidates db uid ids = [] := List.isEmpty_iff.mp hemp
    rw [he]
    refine ⟨List.sorted_nil, fun s => ?_, fun _ => ?_⟩
    · exact List.nil_sublist _
    · exact Nat.zero_le _
  · rw [if_neg hemp]
    refine ⟨?_, fun s => ?_, fun hk => ?_⟩
    · exact List.Pairwise.sublist (pySliceTo_sublist _ _)
        (List.sorted_insertionSort simOrd _)
    · have h1 := List.Sublist.filter (fun c => decide (c.similarity = s))
        (pySliceTo_sublist k (List.insertionSort simOrd
          (scoreChunks qv (loadCandidates db uid ids))))
      rw [filter_insertionSort] at h1
      exact h1
    · rw [pySliceTo, if_pos hk, List.length_take,
        (List.perm_insertionSort simOrd _).length_eq]

/-- **C3** witness: with one candidate and `topK = 5` the bound
`len ≤ min(5, 1)` holds. -/
theorem search_ranking_witness :
    (search_similar_chunks dbOneCand [(1 : ℝ)] 1 5 []).length ≤
      min (5 : Int).toNat (scoreChunks [(1 : ℝ)] (loadCandidates dbOneCand 1 [])).length :=
  (search_ranking dbOneCand [(1 : ℝ)] 1 5 []).2.2 (by norm_num)

/-- **C3** counterexample.  With one scored candidate and `topK = -1` the
result has length 0, which is *not* `≤ min(topK, candidateCount) = -1`: the
claim's length bound fails for negative `topK`. -/
theorem search_ranking_counterexample :
    ((search_similar_chunks dbOneCand [(1 : ℝ)] 1 (-1) []).length : Int) = 0 ∧
    ¬ (((search_similar_chunks dbOneCand [(1 : ℝ)] 1 (-1) []).length : Int) ≤
        min (-1 : Int)
          ((scoreChunks [(1 : ℝ)] (loadCandidates dbOneCand 1 [])).length : Int)) := by
  have h1 : search_similar_chunks dbOneCand [(1 : ℝ)] 1 (-1) [] = [] := rfl
  have h2 : (scoreChunks [(1 : ℝ)] (loadCandidates dbOneCand 1 [])).length = 1 := rfl
  rw [h1, h2]
  norm_num

/-- **C4** (amended).  For `topK ≤ 0`: the result is empty iff `topK = 0` or
the number of scored candidates is at most `|topK|`.  (`results[:top_k]` with
negative `top_k` keeps all but the last `|topK|` sorted candidates — Python
slice semantics — so a negative `topK` does *not* always give an empty
result; see the counterexample.) -/
theorem search_nonpositive_topk (db : Db) (qv : List ℝ) (uid k : Int) (ids : List Int)
    (hk : k ≤ 0) :
    search_similar_chunks db qv uid k ids = [] ↔
      (k = 0 ∨ (scoreChunks qv (loadCandidates db uid ids)).length ≤ (-k).toNat) := by
  simp only [search_similar_chunks]
  by_cases hemp : (loadCandidates db uid ids).isEmpty
  · rw [if_pos hemp]
    have he : loadCandidates db uid ids = [] := List.isEmpty_iff.mp hemp
    rw [he]
    simp [scoreChunks]
  · rw [if_neg hemp]
    have hlen : (List.insertionSort simOrd (scoreChunks qv (loadCandidates db uid ids))).length
        = (scoreChunks qv (loadCandidates db uid ids)).length :=
      (List.perm_insertionSort simOrd _).length_eq
    rcases lt_or_eq_of_le hk with hk0 | hk0
    · rw [pySliceTo, if_neg (by omega), List.take_eq_nil_iff]
      constructor
      · rintro (h | h)
        · right; omega
        · right
          have : (List.insertionSort simOrd
              (scoreChunks qv (loadCandidates db uid ids))).length = 0 := by rw [h]; rfl
          omega
      · rintro (h | h)
        · omega
        · left; omega
    · subst hk0
      rw [pySliceTo, if_pos (le_refl 0)]
      simp

/-- **C4** witness: `topK = 0` gives an empty result. -/
theorem search_nonpositive_topk_witness :
    search_similar_chunks dbOneCand [(1 : ℝ)] 1 0 [] = [] :=
  (search_nonpositive_topk dbOneCand [(1 : ℝ)] 1 0 [] (le_refl 0)).mpr (Or.inl rfl)

/-! ## Ingestion failure on embedding-count mismatch -/

/-- **C7** (confirmed).  If the batch embedding call returned fewer vectors
than there are chunks, positional attachment raises, the document ends in
`processing_status = "failed"` with a non-empty error message, and no chunk is
persisted (the bulk save is never reached). -/
theorem ingestion_count_mismatch_fails (document_id : Int) (chunks : List Chunk)
    (embeddings : List (List ℝ)) (h : embeddings.length < chunks.length) :
    (process_document_embed_save document_id chunks embeddings).processing_status = "failed" ∧
    (∃ e, (process_document_embed_save document_id chunks embeddings).processing_error =
        some e ∧ e ≠ "") ∧
    (process_document_embed_save document_id chunks embeddings).persisted = [] := by
  unfold process_document_embed_save attachEmbeddings
  rw [if_neg (by omega)]
  exact ⟨rfl, ⟨"list index out of range", rfl, by decide⟩, rfl⟩

/-- **C7** witness: one chunk, zero returned vectors. -/
theorem ingestion_count_mismatch_fails_witness :
    (process_document_embed_save 1 [⟨['x'], 0, 1, 0, 0⟩] []).processing_status = "failed" :=
  (ingestion_count_mismatch_fails 1 [⟨['x'], 0, 1, 0, 0⟩] [] (by decide)).1

/-- **C4** counterexample.  Store with two scored candidates, `topK = -1`:
Python's `results[:-1]` returns the first of the two sorted results, so the
output is *not* empty although `topK ≤ 0`. -/
theorem search_nonpositive_topk_counterexample :
    search_similar_chunks dbTwoCand [(1 : ℝ)] 1 (-1) [] ≠ [] ∧ (-1 : Int) ≤ 0 := by
  refine ⟨?_, by norm_num⟩
  have hcos : cosine_similarity [(1 : ℝ)] [1] = 1 := by
    simp [cosine_similarity, dotList]
  have h1 : search_similar_chunks dbTwoCand [(1 : ℝ)] 1 (-1) [] =
      pySliceTo (-1) (List.insertionSort simOrd
        [⟨1, 1, 0, ['t'], 0, 1, 0, cosine_similarity [(1 : ℝ)] [1]⟩,
         ⟨2, 1, 1, ['u'], 1, 2, 0, cosine_similarity [(1 : ℝ)] [1]⟩]) := rfl
  rw [h1, hcos]
  have h2 : List.insertionSort simOrd
      [⟨1, 1, 0, ['t'], 0, 1, 0, (1 : ℝ)⟩, ⟨2, 1, 1, ['u'], 1, 2, 0, (1 : ℝ)⟩] =
      [⟨1, 1, 0, ['t'], 0, 1, 0, (1 : ℝ)⟩, ⟨2, 1, 1, ['u'], 1, 2, 0, (1 : ℝ)⟩] := by
    simp [List.insertionSort, List.orderedInsert, simOrd]
  rw [h2]
  norm_num [pySliceTo]

/-! ## Cosine similarity bounds -/

theorem dotList_nil_right (v : List ℝ) : dotList v [] = 0 := by cases v <;> rfl

theorem dotList_cons (a b : ℝ) (v w : List ℝ) :
    dotList (a :: v) (b :: w) = a * b + dotList v w := by
  simp [dotList]

theorem dotList_self_nonneg (v : List ℝ) : 0 ≤ dotList v v := by
  induction v with
  | nil => simp [dotList]
  | cons a t ih =>
    rw [dotList_cons]
    exact add_nonneg (mul_self_nonneg a) ih

theorem dotList_self_pos {v : List ℝ} {x : ℝ} (hx : x ∈ v) (hx0 : x ≠ 0) :
    0 < dotList v v := by
  induction v with
  | nil => cases hx
  | cons a t ih =>
    rw [dotList_cons]
    rcases List.mem_cons.mp hx with h | h
    · subst h
      exact add_pos_of_pos_of_nonneg (mul_self_pos.mpr hx0) (dotList_self_nonneg t)
    · exact add_pos_of_nonneg_of_pos (mul_self_nonneg a) (ih h)

theorem dotList_sq_aux (a b : ℝ) :
    ∀ (v w : List ℝ),
      0 ≤ a ^ 2 * dotList w w - 2 * a * b * dotList v w + b ^ 2 * dotList v v := by
  intro v
  induction v with
  | nil =>
    intro w
    have h0 : dotList [] w = 0 := rfl
    have h1 : dotList ([] : List ℝ) [] = 0 := rfl
    have hww := dotList_self_nonneg w
    rw [h0, h1]
    nlinarith [mul_nonneg (sq_nonneg a) hww]
  | cons c v' ih =>
    intro w
    cases w with
    | nil =>
      rw [dotList_nil_right, dotList_nil_right]
      have := dotList_self_nonneg (c :: v')
      nlinarith [sq_nonneg b]
    | cons d w' =>
      rw [dotList_cons, dotList_cons, dotList_cons]
      have h := ih w'
      nlinarith [sq_nonneg (a * d - b * c)]

theorem dotList_cauchy : ∀ (v w : List ℝ),
    (dotList v w) ^ 2 ≤ dotList v v * dotList w w := by
  intro v
  induction v with
  | nil =>
    intro w
    simp [dotList]
  | cons c v' ih =>
    intro w
    cases w with
    | nil =>
      rw [dotList_nil_right, dotList_nil_right]
      simp
    | cons d w' =>
      have haux := dotList_sq_aux c d v' w'
      have hIH := ih w'
      rw [dotList_cons, dotList_cons, dotList_cons]
      nlinarith [hIH, haux]

/-- **C6** (confirmed, over the real-number idealisation of floats).
`cosine_similarity` returns `0` whenever either vector's norm is zero; for
equal-dimension non-zero vectors the value lies in `[-1, 1]` (Cauchy–Schwarz);
and `sim(v, v) = 1` for non-zero `v`. -/
theorem cosine_similarity_spec :
    (∀ v w : List ℝ, Real.sqrt (dotList v v) = 0 ∨ Real.sqrt (dotList w w) = 0 →
      cosine_similarity v w = 0) ∧
    (∀ v w : List ℝ, v.length = w.length → (∃ x ∈ v, x ≠ 0) → (∃ y ∈ w, y ≠ 0) →
      -1 ≤ cosine_similarity v w ∧ cosine_similarity v w ≤ 1) ∧
    (∀ v : List ℝ, (∃ x ∈ v, x ≠ 0) → cosine_similarity v v = 1) := by
  refine ⟨fun v w h => ?_, fun v w _hlen hv hw => ?_, fun v hv => ?_⟩
  · simp only [cosine_similarity]
    rw [if_pos h]
  · obtain ⟨x, hx, hx0⟩ := hv
    obtain ⟨y, hy, hy0⟩ := hw
    have hvv : 0 < dotList v v := dotList_self_pos hx hx0
    have hww : 0 < dotList w w := dotList_self_pos hy hy0
    have hn1 : 0 < Real.sqrt (dotList v v) := Real.sqrt_pos.mpr hvv
    have hn2 : 0 < Real.sqrt (dotList w w) := Real.sqrt_pos.mpr hww
    have hcond : ¬ (Real.sqrt (dotList v v) = 0 ∨ Real.sqrt (dotList w w) = 0) := by
      push_neg
      exact ⟨ne_of_gt hn1, ne_of_gt hn2⟩
    simp only [cosine_similarity]
    rw [if_neg hcond]
    have habs : |dotList v w| ≤ Real.sqrt (dotList v v) * Real.sqrt (dotList w w) := by
      rw [← Real.sqrt_mul (le_of_lt hvv)]
      calc |dotList v w| = Real.sqrt ((dotList v w) ^ 2) := (Real.sqrt_sq_eq_abs _).symm
        _ ≤ Real.sqrt (dotList v v * dotList w w) := Real.sqrt_le_sqrt (dotList_cauchy v w)
    have hpos : 0 < Real.sqrt (dotList v v) * Real.sqrt (dotList w w) := mul_pos hn1 hn2
    have hb := abs_le.mp habs
    constructor
    · rw [le_div_iff hpos]
      nlinarith [hb.1]
    · rw [div_le_one hpos]
      exact hb.2
  · obtain ⟨x, hx, hx0⟩ := hv
    have hvv : 0 < dotList v v := dotList_self_pos hx hx0
    have hn : 0 < Real.sqrt (dotList v v) := Real.sqrt_pos.mpr hvv
    simp only [cosine_similarity]
    rw [if_neg (by push_neg; exact ⟨ne_of_gt hn, ne_of_gt hn⟩)]
    rw [Real.mul_self_sqrt (le_of_lt hvv)]
    exact div_self (ne_of_gt hvv)

/-- **C6** witness: `sim([0], [1]) = 0` (zero norm), `sim([1], [1]) ∈ [-1, 1]`
and `sim([1], [1]) = 1`. -/
theorem cosine_similarity_spec_witness :
    cosine_similarity [(0 : ℝ)] [(1 : ℝ)] = 0 ∧
    (-1 ≤ cosine_similarity [(1 : ℝ)] [(1 : ℝ)] ∧
      cosine_similarity [(1 : ℝ)] [(1 : ℝ)] ≤ 1) ∧
    cosine_similarity [(1 : ℝ)] [(1 : ℝ)] = 1 :=
  ⟨cosine_similarity_spec.1 [0] [1] (Or.inl (by simp [dotList])),
   cosine_similarity_spec.2.1 [1] [1] rfl ⟨1, by simp⟩ ⟨1, by simp⟩,
   cosine_similarity_spec.2.2 [1] ⟨1, by simp⟩⟩

/-! ## Cleaning: idempotence on zero-width-free input

The failure mode of `clean_text ∘ clean_text` is the zero-width removal pass
running *after* space collapsing; on zero-width-free input each pass of
`clean_text` is shown to be a fixpoint of the second application. -/

theorem head?_dropWhile_not {α : Type} (p : α → Bool) :
    ∀ (l : List α), ∀ c ∈ (l.dropWhile p).head?, p c = false := by
  intro l
  induction l with
  | nil => intro c hc; cases hc
  | cons a t ih =>
    intro c hc
    rw [List.dropWhile_cons] at hc
    by_cases ha : p a = true
    · rw [if_pos ha] at hc
      exact ih c hc
    · rw [if_neg ha] at hc
      cases hc
      exact Bool.eq_false_iff.mpr ha

theorem dropWhile_eq_self_head {α : Type} (p : α → Bool) (l : List α)
    (h : ∀ c ∈ l.head?, p c = false) : l.dropWhile p = l := by
  cases l with
  | nil => rfl
  | cons a t =>
    rw [List.dropWhile_cons, if_neg]
    rw [h a rfl]
    exact Bool.false_ne_true

theorem takeWhile_eq_nil_head {α : Type} (p : α → Bool) (l : List α)
    (h : ∀ c ∈ l.head?, p c = false) : l.takeWhile p = [] := by
  cases l with
  | nil => rfl
  | cons a t =>
    rw [List.takeWhile_cons, if_neg]
    rw [h a rfl]
    exact Bool.false_ne_true

theorem takeWhile_append_not {α : Type} (p : α → Bool) :
    ∀ (xs ys : List α), (∃ x ∈ xs, p x = false) →
      (xs ++ ys).takeWhile p = xs.takeWhile p := by
  intro xs
  induction xs with
  | nil => intro ys h; obtain ⟨x, hx, -⟩ := h; cases hx
  | cons a t ih =>
    intro ys h
    rw [List.cons_append, List.takeWhile_cons, List.takeWhile_cons]
    by_cases ha : p a = true
    · rw [if_pos ha, if_pos ha]
      have : ∃ x ∈ t, p x = false := by
        obtain ⟨x, hx, hpx⟩ := h
        rcases List.mem_cons.mp hx with rfl | hxt
        · rw [ha] at hpx; cases hpx
        · exact ⟨x, hxt, hpx⟩
      rw [ih ys this]
    · rw [if_neg ha, if_neg ha]

theorem dropWhile_append_not {α : Type} (p : α → Bool) :
    ∀ (xs ys : List α), (∃ x ∈ xs, p x = false) →
      (xs ++ ys).dropWhile p = xs.dropWhile p ++ ys := by
  intro xs
  induction xs with
  | nil => intro ys h; obtain ⟨x, hx, -⟩ := h; cases hx
  | cons a t ih =>
    intro ys h
    rw [List.cons_append, List.dropWhile_cons, List.dropWhile_cons]
    by_cases ha : p a = true
    · rw [if_pos ha, if_pos ha]
      have : ∃ x ∈ t, p x = false := by
        obtain ⟨x, hx, hpx⟩ := h
        rcases List.mem_cons.mp hx with rfl | hxt
        · rw [ha] at hpx; cases hpx
        · exact ⟨x, hxt, hpx⟩
      exact ih ys this
    · rw [if_neg ha, if_neg ha, List.cons_append]

theorem takeWhile_append_all {α : Type} (p : α → Bool) :
    ∀ (xs ys : List α), (∀ x ∈ xs, p x = true) →
      (xs ++ ys).takeWhile p = xs ++ ys.takeWhile p := by
  intro xs
  induction xs with
  | nil => intro ys _; rfl
  | cons a t ih =>
    intro ys h
    rw [List.cons_append, List.takeWhile_cons, if_pos (h a (List.mem_cons_self _ _)),
      ih ys (fun x hx => h x (List.mem_cons_of_mem _ hx)), List.cons_append]

theorem dropWhile_append_all {α : Type} (p : α → Bool) :
    ∀ (xs ys : List α), (∀ x ∈ xs, p x = true) →
      (xs ++ ys).dropWhile p = ys.dropWhile p := by
  intro xs
  induction xs with
  | nil => intro ys _; rfl
  | cons a t ih =>
    intro ys h
    rw [List.cons_append, List.dropWhile_cons, if_pos (h a (List.mem_cons_self _ _))]
    exact ih ys (fun x hx => h x (List.mem_cons_of_mem _ hx))

theorem takeWhile_length_lt {α : Type} (p : α → Bool) :
    ∀ (m : List α), (∃ x ∈ m, p x = false) → (m.takeWhile p).length < m.length := by
  intro m
  induction m with
  | nil => intro h; obtain ⟨x, hx, -⟩ := h; cases hx
  | cons a t ih =>
    intro h
    rw [List.takeWhile_cons]
    by_cases ha : p a = true
    · rw [if_pos ha]
      have : ∃ x ∈ t, p x = false := by
        obtain ⟨x, hx, hpx⟩ := h
        rcases List.mem_cons.mp hx with rfl | hxt
        · rw [ha] at hpx; cases hpx
        · exact ⟨x, hxt, hpx⟩
      simpa using ih this
    · rw [if_neg ha]
      simp

theorem contains_char_iff (l : List Char) (a : Char) : l.contains a = true ↔ a ∈ l := by
  induction l with
  | nil => simp
  | cons c t ih =>
    rw [List.contains_cons, Bool.or_eq_true, List.mem_cons, ih, beq_iff_eq]

theorem dropWhile_idem {α : Type} (p : α → Bool) (l : List α) :
    (l.dropWhile p).dropWhile p = l.dropWhile p :=
  dropWhile_eq_self_head p _ (head?_dropWhile_not p l)

/-! ### `collapseSpaces` -/

theorem collapseSpacesAux_true_eq (l : List Char) :
    collapseSpacesAux true l = collapseSpacesAux false (l.dropWhile (· = ' ')) := by
  induction l with
  | nil => rfl
  | cons c t ih =>
    by_cases hc : c = ' '
    · rw [collapseSpacesAux, if_pos hc, if_pos rfl, ih, List.dropWhile_cons,
        if_pos (by simp [hc])]
    · rw [collapseSpacesAux, if_neg hc, List.dropWhile_cons, if_neg (by simp [hc]),
        collapseSpacesAux, if_neg hc]

theorem head?_collapseSpacesAux_false (l : List Char) :
    (collapseSpacesAux false l).head? = l.head? := by
  cases l with
  | nil => rfl
  | cons c t =>
    by_cases hc : c = ' '
    · rw [collapseSpacesAux, if_pos hc, if_neg Bool.false_ne_true]
      simp [hc]
    · rw [collapseSpacesAux, if_neg hc]
      rfl

theorem chain'_collapseSpacesAux : ∀ (l : List Char) (b : Bool),
    List.Chain' notSpacePair (collapseSpacesAux b l) := by
  intro l
  induction l with
  | nil => intro b; exact List.chain'_nil
  | cons c t ih =>
    intro b
    by_cases hc : c = ' '
    · cases b with
      | true => rw [collapseSpacesAux, if_pos hc, if_pos rfl]; exact ih true
      | false =>
        rw [collapseSpacesAux, if_pos hc, if_neg Bool.false_ne_true]
        rw [List.chain'_cons']
        refine ⟨?_, ih true⟩
        intro y hy
        rw [collapseSpacesAux_true_eq, head?_collapseSpacesAux_false] at hy
        have := head?_dropWhile_not (· = ' ') t y hy
        intro hpair
        rw [hpair.2] at this
        simp at this
    · rw [collapseSpacesAux, if_neg hc]
      rw [List.chain'_cons']
      refine ⟨?_, ih false⟩
      intro y hy hpair
      exact hc hpair.1

theorem collapseSpacesAux_eq_self : ∀ (l : List Char),
    List.Chain' notSpacePair l →
    collapseSpacesAux false l = l ∧
      (l.head? ≠ some ' ' → collapseSpacesAux true l = l) := by
  intro l
  induction l with
  | nil => intro _; exact ⟨rfl, fun _ => rfl⟩
  | cons c t ih =>
    intro hch
    have hrel := (List.chain'_cons'.mp hch).1
    have hch' := (List.chain'_cons'.mp hch).2
    obtain ⟨h1, h2⟩ := ih hch'
    by_cases hc : c = ' '
    · have ht : collapseSpacesAux true t = t := by
        cases t with
        | nil => rfl
        | cons d t' =>
          refine h2 ?_
          have := hrel d rfl
          intro hd
          exact this ⟨hc, by injection hd⟩
      constructor
      · rw [collapseSpacesAux, if_pos hc, if_neg Bool.false_ne_true, ht, hc]
      · intro hhead
        exact absurd (by simp [hc]) hhead
    · constructor
      · rw [collapseSpacesAux, if_neg hc, h1]
      · intro _
        rw [collapseSpacesAux, if_neg hc, h1]

/-! ### `collapseBlank` -/

theorem cBA_nonspace (c : Char) (rest : List Char) (h : isPySpace c = false) (b : Bool) :
    collapseBlankAux b (c :: rest) = c :: collapseBlankAux false rest := by
  rw [collapseBlankAux, if_neg]
  rw [h]
  exact Bool.false_ne_true

theorem cBA_false_keep (c : Char) (rest : List Char) (hsp : isPySpace c = true)
    (h : (decide (c = '\n') && nlAhead rest) = false) :
    collapseBlankAux false (c :: rest) = c :: collapseBlankAux false rest := by
  rw [collapseBlankAux, if_pos hsp, if_neg Bool.false_ne_true, if_neg]
  rw [h]
  exact Bool.false_ne_true

theorem cBA_false_collapse (c : Char) (rest : List Char) (hsp : isPySpace c = true)
    (h : (decide (c = '\n') && nlAhead rest) = true) :
    collapseBlankAux false (c :: rest) = '\n' :: '\n' :: collapseBlankAux true rest := by
  rw [collapseBlankAux, if_pos hsp, if_neg Bool.false_ne_true, if_pos h]

theorem cBA_true_close (c : Char) (rest : List Char) (hsp : isPySpace c = true)
    (h : (decide (c = '\n') && !nlAhead rest) = true) :
    collapseBlankAux true (c :: rest) = collapseBlankAux false rest := by
  rw [collapseBlankAux, if_pos hsp, if_pos rfl, if_pos h]

theorem cBA_true_skip (c : Char) (rest : List Char) (hsp : isPySpace c = true)
    (h : (decide (c = '\n') && !nlAhead rest) = false) :
    collapseBlankAux true (c :: rest) = collapseBlankAux true rest := by
  rw [collapseBlankAux, if_pos hsp, if_pos rfl, if_neg]
  rw [h]
  exact Bool.false_ne_true

theorem not_mem_of_nlAhead_false {rest : List Char} (h : nlAhead rest = false) :
    ∀ x ∈ rest.takeWhile isPySpace, x ≠ '\n' := by
  intro x hx hxe
  subst hxe
  unfold nlAhead at h
  rw [(contains_char_iff _ '\n').mpr hx] at h
  cases h

theorem afterLastNl_cons_of_contains (c : Char) (R : List Char)
    (h : '\n' ∈ R) : afterLastNl (c :: R) = afterLastNl R := by
  unfold afterLastNl
  rw [List.reverse_cons,
    takeWhile_append_not _ _ _ ⟨'\n', List.mem_reverse.mpr h, by simp⟩]

theorem afterLastNl_nl_cons (S : List Char) (h : ∀ x ∈ S, x ≠ '\n') :
    afterLastNl ('\n' :: S) = S := by
  unfold afterLastNl
  rw [List.reverse_cons,
    takeWhile_append_all _ _ _ (fun x hx => by simp [h x (List.mem_reverse.mp hx)])]
  simp

theorem twoNl_mem {S : List Char} (h : twoNl S = true) : '\n' ∈ S := by
  unfold twoNl at h
  have h1 := (contains_char_iff _ '\n').mp h
  exact (List.dropWhile_sublist _).subset ((List.drop_sublist 1 _).subset h1)

theorem normRun_cons (c : Char) (S : List Char) (hc : c ≠ '\n') :
    normRun (c :: S) = c :: normRun S := by
  have htwo : twoNl (c :: S) = twoNl S := by
    unfold twoNl
    rw [List.dropWhile_cons, if_pos (by simp [hc])]
  by_cases h : twoNl S = true
  · rw [normRun, normRun, htwo, if_pos h, if_pos h]
    unfold preNl
    rw [List.takeWhile_cons, if_pos (by simp [hc]),
      afterLastNl_cons_of_contains c S (twoNl_mem h), List.cons_append]
  · have h' : twoNl S = false := Bool.eq_false_iff.mpr h
    rw [normRun, normRun, htwo, if_neg h, if_neg h]

theorem collapseBlankAux_false_space_append : ∀ (S t : List Char),
    (∀ c ∈ S, isPySpace c = true ∧ c ≠ '\n') →
    collapseBlankAux false (S ++ t) = S ++ collapseBlankAux false t := by
  intro S
  induction S with
  | nil => intro t _; rfl
  | cons c S' ih =>
    intro t hS
    obtain ⟨hsp, hnl⟩ := hS c (List.mem_cons_self _ _)
    rw [List.cons_append,
      cBA_false_keep c _ hsp (by rw [decide_eq_false hnl, Bool.false_and]),
      ih t (fun x hx => hS x (List.mem_cons_of_mem _ hx)), List.cons_append]

theorem collapseBlankAux_true_run : ∀ (l : List Char), nlAhead l = true →
    collapseBlankAux true l = afterLastNl (l.takeWhile isPySpace) ++
      collapseBlankAux false (l.dropWhile isPySpace) := by
  intro l
  induction l with
  | nil => intro h; cases h
  | cons c rest ih =>
    intro h
    have hsp : isPySpace c = true := by
      by_contra hns
      have hf : isPySpace c = false := Bool.eq_false_iff.mpr hns
      unfold nlAhead at h
      rw [List.takeWhile_cons, if_neg (by rw [hf]; exact Bool.false_ne_true)] at h
      cases h
    have hrun : (c :: rest).takeWhile isPySpace = c :: rest.takeWhile isPySpace := by
      rw [List.takeWhile_cons, if_pos hsp]
    have hdrop : (c :: rest).dropWhile isPySpace = rest.dropWhile isPySpace := by
      rw [List.dropWhile_cons, if_pos hsp]
    by_cases hc : c = '\n'
    · by_cases hnl : nlAhead rest = true
      · rw [cBA_true_skip c rest hsp (by rw [hnl]; simp), ih hnl, hrun]
        rw [afterLastNl_cons_of_contains c _
          ((contains_char_iff _ '\n').mp hnl), hdrop]
      · have hnl' : nlAhead rest = false := Bool.eq_false_iff.mpr hnl
        rw [cBA_true_close c rest hsp (by rw [decide_eq_true hc, hnl']; rfl)]
        rw [hrun, hdrop, hc, afterLastNl_nl_cons _ (not_mem_of_nlAhead_false hnl')]
        conv_lhs => rw [← List.takeWhile_append_dropWhile isPySpace rest]
        exact collapseBlankAux_false_space_append _ _
          (fun x hx => ⟨List.mem_takeWhile_imp hx, not_mem_of_nlAhead_false hnl' x hx⟩)
    · have hnl2 : nlAhead rest = true := by
        unfold nlAhead at h ⊢
        rw [hrun, List.contains_cons, Bool.or_eq_true] at h
        rcases h with h1 | h1
        · exact absurd (eq_of_beq h1).symm hc
        · exact h1
      rw [cBA_true_skip c rest hsp (by rw [decide_eq_false hc, Bool.false_and]),
        ih hnl2, hrun,
        afterLastNl_cons_of_contains c _ ((contains_char_iff _ '\n').mp hnl2), hdrop]

theorem head?_collapseBlankAux_false (l : List Char) :
    (collapseBlankAux false l).head? = l.head? := by
  cases l with
  | nil => rfl
  | cons c rest =>
    by_cases hsp : isPySpace c = true
    · by_cases hcn : (decide (c = '\n') && nlAhead rest) = true
      · rw [cBA_false_collapse c rest hsp hcn]
        have hcn2 : decide (c = '\n') = true ∧ nlAhead rest = true := by
          rw [Bool.and_eq_true] at hcn
          exact hcn
        rw [of_decide_eq_true hcn2.1]
        rfl
      · rw [cBA_false_keep c rest hsp (Bool.eq_false_iff.mpr hcn)]
        rfl
    · rw [cBA_nonspace c rest (Bool.eq_false_iff.mpr hsp) false]
      rfl

theorem mem_afterLastNl {R : List Char} {x : Char} (h : x ∈ afterLastNl R) : x ∈ R := by
  unfold afterLastNl at h
  rw [List.mem_reverse] at h
  exact List.mem_reverse.mp ((List.takeWhile_sublist _).subset h)

theorem ne_nl_of_mem_afterLastNl {R : List Char} {x : Char} (h : x ∈ afterLastNl R) :
    x ≠ '\n' := by
  unfold afterLastNl at h
  rw [List.mem_reverse] at h
  have := List.mem_takeWhile_imp h
  simpa using this

theorem nlAhead_collapseBlankAux_false {rest : List Char} (h : nlAhead rest = false) :
    nlAhead (collapseBlankAux false rest) = false := by
  have hSmem : ∀ c ∈ rest.takeWhile isPySpace, isPySpace c = true ∧ c ≠ '\n' :=
    fun c hc => ⟨List.mem_takeWhile_imp hc, not_mem_of_nlAhead_false h c hc⟩
  have h1 : collapseBlankAux false rest = rest.takeWhile isPySpace ++
      collapseBlankAux false (rest.dropWhile isPySpace) := by
    conv_lhs => rw [← List.takeWhile_append_dropWhile isPySpace rest]
    exact collapseBlankAux_false_space_append _ _ hSmem
  rw [h1]
  unfold nlAhead
  rw [takeWhile_append_all _ _ _ (fun x hx => (hSmem x hx).1)]
  have h2 : (collapseBlankAux false (rest.dropWhile isPySpace)).takeWhile isPySpace = [] := by
    apply takeWhile_eq_nil_head
    intro x hx
    rw [head?_collapseBlankAux_false] at hx
    exact head?_dropWhile_not isPySpace rest x hx
  rw [h2, List.append_nil]
  exact h

theorem collapseBlankAux_false_idem : ∀ (n : Nat) (l : List Char), l.length ≤ n →
    collapseBlankAux false (collapseBlankAux false l) = collapseBlankAux false l := by
  intro n
  induction n with
  | zero =>
    intro l hl
    have h0 : l = [] := List.length_eq_zero.mp (Nat.le_zero.mp hl)
    subst h0
    rfl
  | succ m ih =>
    intro l hl
    cases l with
    | nil => rfl
    | cons c rest =>
      have hrl : rest.length ≤ m := by
        simp only [List.length_cons] at hl
        omega
      by_cases hsp : isPySpace c = true
      · by_cases hcn : (decide (c = '\n') && nlAhead rest) = true
        · have hcn2 : decide (c = '\n') = true ∧ nlAhead rest = true := by
            rw [Bool.and_eq_true] at hcn
            exact hcn
          have hc : c = '\n' := of_decide_eq_true hcn2.1
          have hnl : nlAhead rest = true := hcn2.2
          subst hc
          rw [cBA_false_collapse '\n' rest hsp hcn]
          have hB1 := collapseBlankAux_true_run rest hnl
          have hAmem : ∀ x ∈ afterLastNl (rest.takeWhile isPySpace),
              isPySpace x = true ∧ x ≠ '\n' := by
            intro x hx
            exact ⟨List.mem_takeWhile_imp (mem_afterLastNl hx), ne_nl_of_mem_afterLastNl hx⟩
          have hY : nlAhead ('\n' :: collapseBlankAux true rest) = true := by
            unfold nlAhead
            rw [List.takeWhile_cons, if_pos (by decide), List.contains_cons]
            simp
          rw [cBA_false_collapse '\n' ('\n' :: collapseBlankAux true rest) (by decide)
            (by rw [hY]; decide)]
          congr 1
          congr 1
          have hnlY : nlAhead (collapseBlankAux true rest) = false := by
            rw [hB1]
            unfold nlAhead
            rw [takeWhile_append_all _ _ _ (fun x hx => (hAmem x hx).1)]
            have h2 : (collapseBlankAux false
                (rest.dropWhile isPySpace)).takeWhile isPySpace = [] := by
              apply takeWhile_eq_nil_head
              intro x hx
              rw [head?_collapseBlankAux_false] at hx
              exact head?_dropWhile_not isPySpace rest x hx
            rw [h2, List.append_nil]
            apply Bool.eq_false_iff.mpr
            intro hcontains
            exact (hAmem '\n' ((contains_char_iff _ _).mp hcontains)).2 rfl
          rw [cBA_true_close '\n' (collapseBlankAux true rest) (by decide)
            (by rw [hnlY]; decide)]
          rw [hB1, collapseBlankAux_false_space_append _ _ hAmem]
          congr 1
          exact ih (rest.dropWhile isPySpace)
            (le_trans (List.dropWhile_sublist _).length_le hrl)
        · have hcn' : (decide (c = '\n') && nlAhead rest) = false := Bool.eq_false_iff.mpr hcn
          rw [cBA_false_keep c rest hsp hcn']
          have hcond2 : (decide (c = '\n') && nlAhead (collapseBlankAux false rest)) = false := by
            by_cases hc : c = '\n'
            · have h5 : nlAhead rest = false := by
                rw [decide_eq_true hc, Bool.true_and] at hcn'
                exact hcn'
              rw [nlAhead_collapseBlankAux_false h5, Bool.and_false]
            · rw [decide_eq_false hc, Bool.false_and]
          rw [cBA_false_keep c _ hsp hcond2, ih rest hrl]
      · have hsp' : isPySpace c = false := Bool.eq_false_iff.mpr hsp
        rw [cBA_nonspace c rest hsp' false, cBA_nonspace c _ hsp' false, ih rest hrl]

theorem collapseBlankAux_false_decomp : ∀ (l : List Char),
    collapseBlankAux false l = normRun (l.takeWhile isPySpace) ++
      collapseBlankAux false (l.dropWhile isPySpace) := by
  intro l
  induction l with
  | nil => rfl
  | cons c rest ih =>
    by_cases hsp : isPySpace c = true
    · have hrun : (c :: rest).takeWhile isPySpace = c :: rest.takeWhile isPySpace := by
        rw [List.takeWhile_cons, if_pos hsp]
      have hdrop : (c :: rest).dropWhile isPySpace = rest.dropWhile isPySpace := by
        rw [List.dropWhile_cons, if_pos hsp]
      rw [hrun, hdrop]
      by_cases hc : c = '\n'
      · subst hc
        have hdw : (('\n' :: rest.takeWhile isPySpace).dropWhile
            fun x => !decide (x = '\n')) = '\n' :: rest.takeWhile isPySpace := by
          rw [List.dropWhile_cons, if_neg (by simp)]
        have htwo : twoNl ('\n' :: rest.takeWhile isPySpace) = nlAhead rest := by
          unfold twoNl
          rw [hdw]
          rfl
        by_cases hnl : nlAhead rest = true
        · rw [cBA_false_collapse '\n' rest hsp (by rw [hnl]; decide),
            collapseBlankAux_true_run rest hnl]
          rw [normRun, if_pos (by rw [htwo]; exact hnl)]
          have hpre : preNl ('\n' :: rest.takeWhile isPySpace) = [] := by
            unfold preNl
            rw [List.takeWhile_cons, if_neg (by simp)]
          rw [hpre,
            afterLastNl_cons_of_contains '\n' _ ((contains_char_iff _ '\n').mp hnl)]
          simp
        · have hnl' : nlAhead rest = false := Bool.eq_false_iff.mpr hnl
          rw [cBA_false_keep '\n' rest hsp (by rw [hnl']; decide)]
          rw [normRun, if_neg (by rw [htwo, hnl']; exact Bool.false_ne_true)]
          have h3 : collapseBlankAux false rest = rest.takeWhile isPySpace ++
              collapseBlankAux false (rest.dropWhile isPySpace) := by
            conv_lhs => rw [← List.takeWhile_append_dropWhile isPySpace rest]
            exact collapseBlankAux_false_space_append _ _
              (fun x hx => ⟨List.mem_takeWhile_imp hx, not_mem_of_nlAhead_false hnl' x hx⟩)
          rw [h3, List.cons_append]
      · rw [cBA_false_keep c rest hsp (by rw [decide_eq_false hc, Bool.false_and]),
          ih, normRun_cons c _ hc, List.cons_append]
    · have hsp' : isPySpace c = false := Bool.eq_false_iff.mpr hsp
      have hrun : (c :: rest).takeWhile isPySpace = [] := by
        rw [List.takeWhile_cons, if_neg (by rw [hsp']; exact Bool.false_ne_true)]
      have hdrop : (c :: rest).dropWhile isPySpace = c :: rest := by
        rw [List.dropWhile_cons, if_neg (by rw [hsp']; exact Bool.false_ne_true)]
      rw [hrun, hdrop]
      rfl

theorem normRun_length (R : List Char) : (normRun R).length ≤ R.length := by
  rw [normRun]
  by_cases h : twoNl R = true
  · rw [if_pos h]
    have hsplit : R = preNl R ++ R.dropWhile (fun x => !decide (x = '\n')) := by
      unfold preNl
      rw [List.takeWhile_append_dropWhile]
    cases hD : R.dropWhile (fun x => !decide (x = '\n')) with
    | nil =>
      exfalso
      unfold twoNl at h
      rw [hD] at h
      cases h
    | cons d D' =>
      have hd : d = '\n' := by
        have := head?_dropWhile_not (fun x => !decide (x = '\n')) R
        rw [hD] at this
        have h2 := this d rfl
        simpa using h2
      have hcontains : '\n' ∈ D' := by
        unfold twoNl at h
        rw [hD] at h
        exact (contains_char_iff _ '\n').mp h
      have haln : afterLastNl R = afterLastNl D' := by
        unfold afterLastNl
        conv_lhs => rw [hsplit, hD, hd]
        rw [List.reverse_append, List.reverse_cons,
          takeWhile_append_not _ _ _
            ⟨'\n', by rw [List.mem_append]; exact Or.inl (List.mem_reverse.mpr hcontains),
              by simp⟩,
          takeWhile_append_not _ _ _ ⟨'\n', List.mem_reverse.mpr hcontains, by simp⟩]
      have hlt : (afterLastNl D').length < D'.length := by
        unfold afterLastNl
        rw [List.length_reverse]
        have := takeWhile_length_lt (fun x => !decide (x = '\n')) D'.reverse
          ⟨'\n', List.mem_reverse.mpr hcontains, by simp⟩
        simpa using this
      have hlen : R.length = (preNl R).length + 1 + D'.length := by
        conv_lhs => rw [hsplit, hD]
        simp [List.length_append]
        omega
      rw [haln]
      simp only [List.length_append, List.length_cons]
      omega
  · rw [if_neg h]

theorem collapseBlankAux_false_length : ∀ (n : Nat) (l : List Char), l.length ≤ n →
    (collapseBlankAux false l).length ≤ l.length := by
  intro n
  induction n with
  | zero =>
    intro l hl
    have h0 : l = [] := List.length_eq_zero.mp (Nat.le_zero.mp hl)
    subst h0
    exact le_refl _
  | succ m ih =>
    intro l hl
    cases l with
    | nil => exact le_refl _
    | cons c rest =>
      have hrl : rest.length ≤ m := by
        simp only [List.length_cons] at hl
        omega
      by_cases hsp : isPySpace c = true
      · rw [collapseBlankAux_false_decomp (c :: rest)]
        have hdrop : (c :: rest).dropWhile isPySpace = rest.dropWhile isPySpace := by
          rw [List.dropWhile_cons, if_pos hsp]
        have h1 := normRun_length ((c :: rest).takeWhile isPySpace)
        have h2 : (collapseBlankAux false ((c :: rest).dropWhile isPySpace)).length ≤
            ((c :: rest).dropWhile isPySpace).length := by
          rw [hdrop]
          exact ih _ (le_trans (List.dropWhile_sublist _).length_le hrl)
        have h3 : ((c :: rest).takeWhile isPySpace).length +
            ((c :: rest).dropWhile isPySpace).length = (c :: rest).length := by
          rw [← List.length_append, List.takeWhile_append_dropWhile]
        rw [List.length_append]
        omega
      · rw [cBA_nonspace c rest (Bool.eq_false_iff.mpr hsp) false]
        simp only [List.length_cons]
        exact Nat.succ_le_succ (ih rest hrl)

theorem collapseBlankAux_fix_dropWhile {l : List Char}
    (h : collapseBlankAux false l = l) :
    collapseBlankAux false (l.dropWhile isPySpace) = l.dropWhile isPySpace := by
  have hdec := collapseBlankAux_false_decomp l
  rw [h] at hdec
  -- hdec : l = normRun (wsRun l) ++ cBA false (afterRun l)
  have hspace : ∀ x ∈ normRun (l.takeWhile isPySpace), isPySpace x = true := by
    intro x hx
    rw [normRun] at hx
    by_cases h2 : twoNl (l.takeWhile isPySpace) = true
    · rw [if_pos h2] at hx
      rcases List.mem_append.mp hx with h3 | h3
      · exact List.mem_takeWhile_imp ((List.takeWhile_sublist _).subset
          (by unfold preNl at h3; exact h3))
      · rcases List.mem_cons.mp h3 with rfl | h4
        · decide
        · rcases List.mem_cons.mp h4 with rfl | h5
          · decide
          · exact List.mem_takeWhile_imp (mem_afterLastNl h5)
    · rw [if_neg h2] at hx
      exact List.mem_takeWhile_imp hx
  have hhead : ∀ x ∈ (collapseBlankAux false (l.dropWhile isPySpace)).head?,
      isPySpace x = false := by
    intro x hx
    rw [head?_collapseBlankAux_false] at hx
    exact head?_dropWhile_not isPySpace l x hx
  calc collapseBlankAux false (l.dropWhile isPySpace)
      = (l.dropWhile isPySpace).dropWhile isPySpace := by
        conv_lhs => rw [← dropWhile_eq_self_head isPySpace _ hhead]
        congr 1
        conv_rhs => rw [hdec]
        rw [dropWhile_append_all _ _ _ hspace,
          dropWhile_eq_self_head isPySpace _ hhead]
    _ = l.dropWhile isPySpace := dropWhile_idem _ _

theorem collapseBlankAux_false_append_trailing : ∀ (n : Nat) (M T : List Char),
    M.length ≤ n →
    (∀ x ∈ M.getLast?, isPySpace x = false) →
    (∀ c ∈ T, isPySpace c = true) →
    collapseBlankAux false (M ++ T) =
      collapseBlankAux false M ++ collapseBlankAux false T := by
  intro n
  induction n with
  | zero =>
    intro M T hlen _ _
    have h0 : M = [] := List.length_eq_zero.mp (Nat.le_zero.mp hlen)
    subst h0
    have he : collapseBlankAux false ([] : List Char) = [] := rfl
    simp [he]
  | succ m ih =>
    intro M T hlen hM hT
    cases M with
    | nil =>
      have he : collapseBlankAux false ([] : List Char) = [] := rfl
      simp [he]
    | cons c M' =>
      have hlen' : M'.length ≤ m := by
        simp only [List.length_cons] at hlen
        omega
      by_cases hsp : isPySpace c = true
      · have hmem : ∃ x ∈ c :: M', isPySpace x = false := by
          cases hgl : (c :: M').getLast? with
          | none => exact absurd hgl (by simp)
          | some x =>
            exact ⟨x, List.mem_of_mem_getLast? (by rw [hgl]; rfl), hM x (by rw [hgl]; rfl)⟩
        have h1 : ((c :: M') ++ T).takeWhile isPySpace = (c :: M').takeWhile isPySpace :=
          takeWhile_append_not _ _ _ hmem
        have h2 : ((c :: M') ++ T).dropWhile isPySpace =
            (c :: M').dropWhile isPySpace ++ T :=
          dropWhile_append_not _ _ _ hmem
        rw [collapseBlankAux_false_decomp ((c :: M') ++ T), h1, h2,
          collapseBlankAux_false_decomp (c :: M'), List.append_assoc]
        congr 1
        apply ih
        · rw [List.dropWhile_cons, if_pos hsp]
          exact le_trans (List.dropWhile_sublist _).length_le hlen'
        · intro x hx
          apply hM
          have hx' : ((c :: M').dropWhile isPySpace).getLast? = some x := hx
          rw [← List.takeWhile_append_dropWhile isPySpace (c :: M'),
            List.getLast?_append, hx']
          rfl
        · exact hT
      · have hsp' : isPySpace c = false := Bool.eq_false_iff.mpr hsp
        rw [List.cons_append, cBA_nonspace c (M' ++ T) hsp' false,
          cBA_nonspace c M' hsp' false,
          ih M' T hlen' (fun x hx => hM x (by
            cases M' with
            | nil => cases hx
            | cons d M'' => rw [List.getLast?_cons_cons]; exact hx)) hT,
          List.cons_append]

theorem rdrop_decomp (w : List Char) :
    w = (w.reverse.dropWhile isPySpace).reverse ++
      (w.reverse.takeWhile isPySpace).reverse := by
  calc w = w.reverse.reverse := (List.reverse_reverse w).symm
    _ = (w.reverse.takeWhile isPySpace ++ w.reverse.dropWhile isPySpace).reverse := by
        rw [List.takeWhile_append_dropWhile]
    _ = _ := by rw [List.reverse_append]

theorem collapseBlankAux_fix_rdrop {w : List Char} (h : collapseBlankAux false w = w) :
    collapseBlankAux false ((w.reverse.dropWhile isPySpace).reverse) =
      (w.reverse.dropWhile isPySpace).reverse := by
  have hsplit := rdrop_decomp w
  have hTmem : ∀ c ∈ (w.reverse.takeWhile isPySpace).reverse, isPySpace c = true := by
    intro c hc
    rw [List.mem_reverse] at hc
    exact List.mem_takeWhile_imp hc
  have hMlast : ∀ x ∈ ((w.reverse.dropWhile isPySpace).reverse).getLast?,
      isPySpace x = false := by
    intro x hx
    apply head?_dropWhile_not isPySpace w.reverse
    rw [← List.head?_reverse, List.reverse_reverse] at hx
    exact hx
  have hsplit2 := h
  conv_lhs at hsplit2 => rw [hsplit]
  conv_rhs at hsplit2 => rw [hsplit]
  rw [collapseBlankAux_false_append_trailing
    ((w.reverse.dropWhile isPySpace).reverse).length _ _ (le_refl _) hMlast hTmem]
    at hsplit2
  have hlenM := collapseBlankAux_false_length
    ((w.reverse.dropWhile isPySpace).reverse).length _ (le_refl _)
  have hlenT := collapseBlankAux_false_length
    ((w.reverse.takeWhile isPySpace).reverse).length _ (le_refl _)
  have hlens : (collapseBlankAux false ((w.reverse.dropWhile isPySpace).reverse)).length =
      ((w.reverse.dropWhile isPySpace).reverse).length := by
    have hcong := congrArg List.length hsplit2
    simp only [List.length_append] at hcong
    omega
  exact (List.append_inj hsplit2 hlens).1

theorem collapseBlank_fix_pyStrip {l : List Char} (h : collapseBlankAux false l = l) :
    collapseBlankAux false (pyStrip l) = pyStrip l :=
  collapseBlankAux_fix_rdrop (collapseBlankAux_fix_dropWhile h)

theorem pyStrip_idem (l : List Char) : pyStrip (pyStrip l) = pyStrip l := by
  have h1 : (pyStrip l).dropWhile isPySpace = pyStrip l := by
    apply dropWhile_eq_self_head
    intro c hc
    apply head?_dropWhile_not isPySpace l c
    have hsplit := rdrop_decomp (l.dropWhile isPySpace)
    cases hMv : ((l.dropWhile isPySpace).reverse.dropWhile isPySpace).reverse with
    | nil =>
      have : pyStrip l = [] := hMv
      rw [this] at hc
      cases hc
    | cons a M' =>
      have hpc : pyStrip l = a :: M' := hMv
      rw [hpc] at hc
      rw [hsplit, hMv]
      exact hc
  show (((pyStrip l).dropWhile isPySpace).reverse.dropWhile isPySpace).reverse = pyStrip l
  rw [h1]
  have h2 : (pyStrip l).reverse = (l.dropWhile isPySpace).reverse.dropWhile isPySpace :=
    List.reverse_reverse _
  rw [h2, dropWhile_idem]
  rfl

theorem pyStrip_infix (l : List Char) : ∃ s t, l = s ++ pyStrip l ++ t := by
  refine ⟨l.takeWhile isPySpace,
    ((l.dropWhile isPySpace).reverse.takeWhile isPySpace).reverse, ?_⟩
  rw [List.append_assoc]
  conv_lhs => rw [← List.takeWhile_append_dropWhile isPySpace l]
  congr 1
  exact rdrop_decomp (l.dropWhile isPySpace)

theorem chain'_collapseBlankAux : ∀ (l : List Char), List.Chain' notSpacePair l →
    List.Chain' notSpacePair (collapseBlankAux false l) ∧
    List.Chain' notSpacePair (collapseBlankAux true l) := by
  intro l
  induction l with
  | nil => exact fun _ => ⟨List.chain'_nil, List.chain'_nil⟩
  | cons c rest ih =>
    intro h
    have hrel := (List.chain'_cons'.mp h).1
    have hch' := (List.chain'_cons'.mp h).2
    obtain ⟨ihf, iht⟩ := ih hch'
    constructor
    · by_cases hsp : isPySpace c = true
      · by_cases hcn : (decide (c = '\n') && nlAhead rest) = true
        · rw [cBA_false_collapse c rest hsp hcn, List.chain'_cons']
          refine ⟨fun y _ hp => by exact absurd hp.1 (by decide), ?_⟩
          rw [List.chain'_cons']
          exact ⟨fun y _ hp => by exact absurd hp.1 (by decide), iht⟩
        · rw [cBA_false_keep c rest hsp (Bool.eq_false_iff.mpr hcn), List.chain'_cons']
          refine ⟨?_, ihf⟩
          intro y hy
          rw [head?_collapseBlankAux_false] at hy
          exact hrel y hy
      · rw [cBA_nonspace c rest (Bool.eq_false_iff.mpr hsp) false, List.chain'_cons']
        refine ⟨?_, ihf⟩
        intro y hy
        rw [head?_collapseBlankAux_false] at hy
        exact hrel y hy
    · by_cases hsp : isPySpace c = true
      · by_cases hcn : (decide (c = '\n') && !nlAhead rest) = true
        · rw [cBA_true_close c rest hsp hcn]
          exact ihf
        · rw [cBA_true_skip c rest hsp (Bool.eq_false_iff.mpr hcn)]
          exact iht
      · rw [cBA_nonspace c rest (Bool.eq_false_iff.mpr hsp) true, List.chain'_cons']
        refine ⟨?_, ihf⟩
        intro y hy
        rw [head?_collapseBlankAux_false] at hy
        exact hrel y hy

theorem mem_collapseSpacesAux : ∀ (l : List Char) (b : Bool) (c : Char),
    c ∈ collapseSpacesAux b l → c ∈ l := by
  intro l
  induction l with
  | nil => intro b c hc; cases hc
  | cons d t ih =>
    intro b c hc
    by_cases hd : d = ' '
    · cases b with
      | true =>
        rw [collapseSpacesAux, if_pos hd, if_pos rfl] at hc
        exact List.mem_cons_of_mem _ (ih true c hc)
      | false =>
        rw [collapseSpacesAux, if_pos hd, if_neg Bool.false_ne_true] at hc
        rcases List.mem_cons.mp hc with rfl | h2
        · rw [hd]
          exact List.mem_cons_self _ _
        · exact List.mem_cons_of_mem _ (ih true c h2)
    · rw [collapseSpacesAux, if_neg hd] at hc
      rcases List.mem_cons.mp hc with rfl | h2
      · exact List.mem_cons_self _ _
      · exact List.mem_cons_of_mem _ (ih false c h2)

theorem mem_collapseBlankAux : ∀ (l : List Char) (b : Bool) (c : Char),
    c ∈ collapseBlankAux b l → c ∈ l ∨ c = '\n' := by
  intro l
  induction l with
  | nil => intro b c hc; cases hc
  | cons d t ih =>
    intro b c hc
    by_cases hsp : isPySpace d = true
    · cases b with
      | true =>
        by_cases hcn : (decide (d = '\n') && !nlAhead t) = true
        · rw [cBA_true_close d t hsp hcn] at hc
          rcases ih false c hc with h2 | h2
          · exact Or.inl (List.mem_cons_of_mem _ h2)
          · exact Or.inr h2
        · rw [cBA_true_skip d t hsp (Bool.eq_false_iff.mpr hcn)] at hc
          rcases ih true c hc with h2 | h2
          · exact Or.inl (List.mem_cons_of_mem _ h2)
          · exact Or.inr h2
      | false =>
        by_cases hcn : (decide (d = '\n') && nlAhead t) = true
        · rw [cBA_false_collapse d t hsp hcn] at hc
          rcases List.mem_cons.mp hc with rfl | h2
          · exact Or.inr rfl
          · rcases List.mem_cons.mp h2 with rfl | h3
            · exact Or.inr rfl
            · rcases ih true c h3 with h4 | h4
              · exact Or.inl (List.mem_cons_of_mem _ h4)
              · exact Or.inr h4
        · rw [cBA_false_keep d t hsp (Bool.eq_false_iff.mpr hcn)] at hc
          rcases List.mem_cons.mp hc with rfl | h2
          · exact Or.inl (List.mem_cons_self _ _)
          · rcases ih false c h2 with h3 | h3
            · exact Or.inl (List.mem_cons_of_mem _ h3)
            · exact Or.inr h3
    · rw [cBA_nonspace d t (Bool.eq_false_iff.mpr hsp) b] at hc
      rcases List.mem_cons.mp hc with rfl | h2
      · exact Or.inl (List.mem_cons_self _ _)
      · rcases ih false c h2 with h3 | h3
        · exact Or.inl (List.mem_cons_of_mem _ h3)
        · exact Or.inr h3

theorem mem_pyStrip {l : List Char} {c : Char} (h : c ∈ pyStrip l) : c ∈ l := by
  unfold pyStrip at h
  rw [List.mem_reverse] at h
  have h1 := (List.dropWhile_sublist _).subset h
  rw [List.mem_reverse] at h1
  exact (List.dropWhile_sublist _).subset h1

theorem removeZeroWidth_eq_self {l : List Char} (h : ∀ c ∈ l, isZeroWidth c = false) :
    removeZeroWidth l = l := by
  unfold removeZeroWidth
  rw [List.filter_eq_self]
  intro a ha
  rw [h a ha]
  rfl

/-- **C8** (amended).  `clean_text` is idempotent on every input that contains
no zero-width/BOM characters.  The restriction is forced by the pass order:
zero-width removal runs *after* space collapsing, so removing a zero-width
character can merge two spaces that the collapsing pass can no longer see
(see the counterexample). -/
theorem clean_text_idempotent_of_no_zero_width (l : List Char)
    (h : ∀ c ∈ l, isZeroWidth c = false) :
    clean_text (clean_text l) = clean_text l := by
  have hzw2 : ∀ c ∈ collapseBlank (collapseSpaces l), isZeroWidth c = false := by
    intro c hc
    rcases mem_collapseBlankAux _ false c hc with h1 | h1
    · exact h c (mem_collapseSpacesAux _ false c h1)
    · rw [h1]
      decide
  have hry : clean_text l = pyStrip (collapseBlank (collapseSpaces l)) := by
    unfold clean_text
    rw [removeZeroWidth_eq_self hzw2]
  have hchain2 : List.Chain' notSpacePair (collapseBlank (collapseSpaces l)) :=
    (chain'_collapseBlankAux _ (chain'_collapseSpacesAux l false)).1
  have hchainy : List.Chain' notSpacePair (clean_text l) := by
    rw [hry]
    obtain ⟨s, t, hst⟩ := pyStrip_infix (collapseBlank (collapseSpaces l))
    have hc2 := hchain2
    rw [hst, List.append_assoc] at hc2
    exact (List.chain'_append.mp ((List.chain'_append.mp hc2).2.1)).1
  have hfixz2 : collapseBlankAux false (collapseBlank (collapseSpaces l)) =
      collapseBlank (collapseSpaces l) :=
    collapseBlankAux_false_idem (collapseSpaces l).length (collapseSpaces l) (le_refl _)
  have hfix2 : collapseBlank (clean_text l) = clean_text l := by
    rw [hry]
    exact collapseBlank_fix_pyStrip hfixz2
  have hfix1 : collapseSpaces (clean_text l) = clean_text l :=
    (collapseSpacesAux_eq_self _ hchainy).1
  have hzwy : ∀ c ∈ clean_text l, isZeroWidth c = false := by
    intro c hc
    rw [hry] at hc
    exact hzw2 c (mem_pyStrip hc)
  have hstr : pyStrip (clean_text l) = clean_text l := by
    rw [hry]
    exact pyStrip_idem _
  calc clean_text (clean_text l)
      = pyStrip (removeZeroWidth (collapseBlank (collapseSpaces (clean_text l)))) := rfl
    _ = clean_text l := by rw [hfix1, hfix2, removeZeroWidth_eq_self hzwy, hstr]

/-- **C8** counterexample.  `clean("a ​ b") = "a  b"` (the zero-width
space is removed *after* space collapsing, leaving a double space), and
cleaning again collapses it to `"a b"`: cleaning is not idempotent. -/
theorem clean_text_not_idempotent_counterexample :
    clean_text (clean_text ['a', ' ', '​', ' ', 'b']) ≠
      clean_text ['a', ' ', '​', ' ', 'b'] := by decide

/-- **C8** witness: on the zero-width-free input `"a  b"` cleaning is
idempotent. -/
theorem clean_text_idempotent_witness :
    clean_text (clean_text ['a', ' ', ' ', 'b']) = clean_text ['a', ' ', ' ', 'b'] :=
  clean_text_idempotent_of_no_zero_width ['a', ' ', ' ', 'b'] (by decide)
